import Mathlib

/-! A shallow embedding of underbar.js.

The collection helpers and function decorators of `src/underbar.js`, written as
Lean functions, and the properties the specification states about them.

Modelling conventions.

* `Val` is the type of JavaScript primitive values.  Numbers are the integer-valued
  doubles together with `NaN`; fractions and infinities are not represented.  The value
  `num n` stands for the number the literal `n` denotes, the double nearest to `n`.
* A mapping (plain object) is the list of its own enumerable properties in
  enumeration order.  The language leaves that order to the engine; it is taken to be
  insertion order here, and the general statements below hold for every order.  The
  prototype chain is not represented, so a property that is not an own property reads
  as `undefined`.
* A callback that assigns to variables of the enclosing function is a state
  transformer on those variables.
* Iterators handed to the collection helpers are pure functions on values.  The
  function wrapped by a decorator may have effects: it transforms a world of an
  arbitrary type, and it does not call the wrapper that encloses it.
* Where a statement is about which invocations take place, the iterator has effects on
  a world as well, and it is run through a recording wrapper.  An iterator does not
  change the collection it is run over.
-/

namespace Underbar

/-! ## Values -/

/-- JavaScript primitive values. -/
inductive Val where
  | undefined : Val
  | null : Val
  | bool (b : Bool) : Val
  | num (n : Int) : Val
  | nan : Val
  | str (s : String) : Val
  deriving DecidableEq, Repr

/-- Strict equality `a === b`: equal type and equal value, `NaN` equal to nothing. -/
def strictEq : Val → Val → Bool
  | .nan, _ => false
  | _, .nan => false
  | a, b => decide (a = b)

/-- The boolean a value converts to: `undefined`, `null`, `false`, `0`, `NaN` and the
empty string are falsy, every other value is truthy. -/
def truthy : Val → Bool
  | .undefined => false
  | .null => false
  | .bool b => b
  | .num n => decide (n ≠ 0)
  | .nan => false
  | .str s => decide (s ≠ "")

/-- Logical not, `!a`. -/
def jsNot (a : Val) : Val := .bool (!truthy a)

/-- Logical or, `a || b`: the left operand when it is truthy, else the right one. -/
def jsOr (a b : Val) : Val := if truthy a then a else b

/-- Logical and, `a && b`: the left operand when it is falsy, else the right one. -/
def jsAnd (a b : Val) : Val := if truthy a then b else a

/-! ### Numbers as the language stores and prints them

A number is a double.  An integer below `2^53` in magnitude is stored as it is; a
larger one is stored as the nearest double, a significand of 53 bits times a power of
two, and printed with the fewest digits that read back as that double. -/

/-- The double nearest to a natural number, as significand and exponent: the number
itself below `2^53`, and otherwise a significand of 53 bits, rounded to nearest with
ties to the even significand, and the power of two it is multiplied by. -/
def nearestDouble (a : Nat) : Nat × Nat :=
  if a < 9007199254740992 then (a, 0)
  else
    let e := (Nat.toDigits 2 a).length - 53
    let q := a / 2 ^ e
    let r := a % 2 ^ e
    let half := 2 ^ (e - 1)
    let q1 := if half < r ∨ (r = half ∧ q % 2 = 1) then q + 1 else q
    if q1 = 9007199254740992 then (4503599627370496, e + 1) else (q1, e)

/-- The value of the double nearest to a natural number. -/
def roundNat (a : Nat) : Nat := (nearestDouble a).1 * 2 ^ (nearestDouble a).2

/-- The value of the double nearest to an integer. -/
def roundInt (n : Int) : Int :=
  if n < 0 then -((roundNat n.natAbs : Nat) : Int) else ((roundNat n.natAbs : Nat) : Int)

/-- Whether the decimal value `c` reads back as the double `sig * 2^exp` (of 53 bits):
it lies within half a gap of it, the ends included when the significand is even.  The
gap below a power of two is half the gap above.  Values are compared four times
enlarged, so that a quarter of a gap is a whole number. -/
def readsBack (sig exp c : Nat) : Bool :=
  let x4 := 4 * sig * 2 ^ exp
  let below := if sig = 4503599627370496 then 2 ^ exp else 2 * 2 ^ exp
  let above := 2 * 2 ^ exp
  if sig % 2 = 0 then decide (x4 ≤ 4 * c + below ∧ 4 * c ≤ x4 + above)
  else decide (x4 < 4 * c + below ∧ 4 * c < x4 + above)

/-- The value with `k` significant digits that reads back as the double `sig * 2^exp`,
which has `digits` decimal digits: the nearer of the two neighbours with `k` digits, the
one with the even last digit on a tie, when there is one. -/
def shortestAt (sig exp digits k : Nat) : Option Nat :=
  let x := sig * 2 ^ exp
  let p := 10 ^ (digits - k)
  let lo := x / p * p
  let hi := lo + p
  match readsBack sig exp lo, readsBack sig exp hi with
  | true, true =>
    if x - lo < hi - x then Option.some lo
    else if hi - x < x - lo then Option.some hi
    else if (lo / p) % 2 = 0 then Option.some lo else Option.some hi
  | true, false => Option.some lo
  | false, true => Option.some hi
  | false, false => none

/-- The value with the fewest significant digits that reads back as the double
`sig * 2^exp`. -/
def shortest (sig exp : Nat) : Nat :=
  let x := sig * 2 ^ exp
  let digits := (Nat.toDigits 10 x).length
  ((List.range digits).findSome? (fun k => shortestAt sig exp digits (k + 1))).getD x

/-- A list of digits without its zeros at the end. -/
def stripZeros (ds : List Char) : List Char :=
  (ds.reverse.dropWhile (fun c => c = '0')).reverse

/-- The string of a natural number taken as a number of the language.  Below `2^53`
it is the decimal digits.  From there on it is the shortest digits of the nearest double,
followed by zeros when there are at most 21 digits in all, and in exponent form
otherwise; a number beyond the largest double is `Infinity`. -/
def natToString (a : Nat) : String :=
  if a < 9007199254740992 then toString a
  else
    let d := nearestDouble a
    if 971 < d.2 then "Infinity"
    else
      let c := shortest d.1 d.2
      let ds := Nat.toDigits 10 c
      if ds.length ≤ 21 then String.mk ds
      else
        match stripZeros ds with
        | [] => String.mk ds
        | [d1] => String.mk [d1] ++ "e+" ++ toString (ds.length - 1)
        | d1 :: rest => String.mk (d1 :: '.' :: rest) ++ "e+" ++ toString (ds.length - 1)

/-- The string of an integer taken as a number of the language. -/
def intToString (n : Int) : String :=
  if n < 0 then "-" ++ natToString n.natAbs else natToString n.natAbs

/-- The string a value converts to when it is used as a property name. -/
def toKey : Val → String
  | .undefined => "undefined"
  | .null => "null"
  | .bool true => "true"
  | .bool false => "false"
  | .num n => intToString n
  | .nan => "NaN"
  | .str s => s

/-- The value of a digit of a numeric literal, letters counting from ten. -/
def digitValue (c : Char) : Option Nat :=
  if '0' ≤ c ∧ c ≤ '9' then Option.some (c.toNat - 48)
  else if 'a' ≤ c ∧ c ≤ 'f' then Option.some (c.toNat - 87)
  else if 'A' ≤ c ∧ c ≤ 'F' then Option.some (c.toNat - 55)
  else none

/-- The value of a non-empty run of digits in the given radix. -/
def parseDigits (radix : Nat) (cs : List Char) : Option Nat :=
  match cs with
  | [] => none
  | _ =>
    cs.foldl
      (fun acc c =>
        match acc, digitValue c with
        | .some a, .some d => if d < radix then Option.some (a * radix + d) else none
        | _, _ => none)
      (Option.some 0)

/-- Whether a character is white space or a line end of the language. -/
def isSpace (c : Char) : Bool :=
  [9, 10, 11, 12, 13, 32, 160, 5760, 8192, 8193, 8194, 8195, 8196, 8197, 8198, 8199, 8200,
    8201, 8202, 8232, 8233, 8239, 8287, 12288, 65279].contains c.toNat

/-- A list of characters without the white space at its two ends. -/
def trimSpace (cs : List Char) : List Char :=
  ((cs.dropWhile isSpace).reverse.dropWhile isSpace).reverse

/-- The integer `n * 10^(e - f)` of a decimal literal with digits `n`, a fraction of
`f` digits and exponent `e`, when it is an integer within the range of the doubles. -/
def scaleDecimal (n : Nat) (e : Int) (f : Nat) : Option Nat :=
  if n = 0 then Option.some 0
  else if 400 < e - f then none
  else if 0 ≤ e - f then Option.some (n * 10 ^ (e - f).toNat)
  else if n % 10 ^ (f - e).toNat = 0 then Option.some (n / 10 ^ (f - e).toNat)
  else none

/-- The value of an unsigned decimal literal, digits with an optional fraction and an
optional exponent, when it is an integer. -/
def parseDecimal (cs : List Char) : Option Nat :=
  let mant := cs.takeWhile (fun c => c ≠ 'e' ∧ c ≠ 'E')
  let ip := mant.takeWhile (fun c => c ≠ '.')
  let fp := (mant.dropWhile (fun c => c ≠ '.')).drop 1
  match parseDigits 10 (ip ++ fp) with
  | .none => none
  | .some n =>
    match cs.dropWhile (fun c => c ≠ 'e' ∧ c ≠ 'E') with
    | [] => scaleDecimal n 0 fp.length
    | _ :: '-' :: ds => (parseDigits 10 ds).bind (fun e => scaleDecimal n (-(e : Int)) fp.length)
    | _ :: '+' :: ds => (parseDigits 10 ds).bind (fun e => scaleDecimal n (e : Int) fp.length)
    | _ :: ds => (parseDigits 10 ds).bind (fun e => scaleDecimal n (e : Int) fp.length)

/-- The number a natural number literal denotes: the nearest double, when the literal
is within the range of the doubles. -/
def literalValue (a : Nat) : Option Int :=
  if 971 < (nearestDouble a).2 then none else Option.some ((roundNat a : Nat) : Int)

/-- The number a string converts to; `none` stands for `NaN`.  The string is trimmed;
the empty string is `0`; a run of digits after `0x`, `0o` or `0b` is read in that radix;
a decimal literal, with a sign or without, is read as it stands.  The value is stored
as the nearest double.  A literal whose value is not an integer or is beyond the
largest double, and `Infinity`, have no number in the embedding and are given as
`NaN`. -/
def stringToNumber (s : String) : Option Int :=
  match trimSpace s.toList with
  | [] => Option.some 0
  | '0' :: 'x' :: cs => (parseDigits 16 cs).bind literalValue
  | '0' :: 'X' :: cs => (parseDigits 16 cs).bind literalValue
  | '0' :: 'o' :: cs => (parseDigits 8 cs).bind literalValue
  | '0' :: 'O' :: cs => (parseDigits 8 cs).bind literalValue
  | '0' :: 'b' :: cs => (parseDigits 2 cs).bind literalValue
  | '0' :: 'B' :: cs => (parseDigits 2 cs).bind literalValue
  | '-' :: cs => ((parseDecimal cs).bind literalValue).map (fun n => -n)
  | '+' :: cs => (parseDecimal cs).bind literalValue
  | cs => (parseDecimal cs).bind literalValue

/-- The number a value converts to in a numeric comparison; `none` stands for `NaN`. -/
def toNumber : Val → Option Int
  | .undefined => none
  | .null => Option.some 0
  | .bool true => Option.some 1
  | .bool false => Option.some 0
  | .num n => Option.some n
  | .nan => none
  | .str s => stringToNumber s

/-- Addition `a + b` on primitives: concatenation of the string forms when either
operand is a string, the sum of the number forms otherwise, stored as the nearest
double.  (A sum beyond the largest double is `Infinity`, which is not represented.) -/
def jsAdd (a b : Val) : Val :=
  match a, b with
  | .str s, _ => .str (s ++ toKey b)
  | _, .str t => .str (toKey a ++ t)
  | _, _ =>
    match toNumber a, toNumber b with
    | .some m, .some n => .num (roundInt (m + n))
    | _, _ => .nan

/-! ## Collections -/

/-- A plain object: its own enumerable properties, in enumeration order. -/
abbrev Obj := List (String × Val)

/-- Property read `o[k]`; an absent property reads as `undefined`. -/
def Obj.get (o : Obj) (k : String) : Val :=
  match o.lookup k with
  | .some v => v
  | .none => .undefined

/-- Write of the own property `k`: an existing property keeps its place, a new one is
added last. -/
def Obj.put : Obj → String → Val → Obj
  | [], k, v => [(k, v)]
  | (k1, v1) :: rest, k, v =>
    if k1 = k then (k1, v) :: rest else (k1, v1) :: Obj.put rest k v

/-- Property write `o[k] = v` on a plain object.  The name `__proto__` is the accessor
a plain object inherits: assigning a primitive to it creates no property and leaves the
own properties as they are.  Every other name is written as an own property.  (Assigning
`null` to `__proto__` also detaches the prototype, which is not represented.) -/
def Obj.set (o : Obj) (k : String) (v : Val) : Obj :=
  if k = "__proto__" then o else Obj.put o k v

/-- The property names a `for (var prop in o)` loop visits, in order. -/
def Obj.keys (o : Obj) : List String := o.map Prod.fst

/-- A collection: an array or a string-keyed mapping. -/
inductive Coll where
  | arr (xs : List Val) : Coll
  | obj (o : Obj) : Coll
  deriving DecidableEq, Repr

/-- The values a collection holds, in the order `each` visits them. -/
def Coll.items : Coll → List Val
  | .arr xs => xs
  | .obj o => o.keys.map o.get

/-- The expression `collection.length`. -/
def Coll.length : Coll → Val
  | .arr xs => .num xs.length
  | .obj o => o.get "length"

/-- The expression `collection[i]` for a loop counter `i`. -/
def Coll.at : Coll → Nat → Val
  | .arr xs, i => xs.getD i .undefined
  | .obj o, i => o.get (toString i)

/-! ## Iteration core -/

/-- The array branch of `_.each`: the loop `for (var i = 0; i < collection.length; i++)`,
started at counter `i` with `rest` the elements from `i` on. -/
def eachArr {σ : Type} (collection : Coll) (iterator : Val → Val → Coll → σ → σ) :
    List Val → Nat → σ → σ
  | [], _, s => s
  | x :: rest, i, s => eachArr collection iterator rest (i + 1) (iterator x (.num i) collection s)

/-- The function `_.each`: call `iterator(value, key, collection)` for each element. -/
def each {σ : Type} (collection : Coll) (iterator : Val → Val → Coll → σ → σ) (s : σ) : σ :=
  match collection with
  | .arr xs => eachArr collection iterator xs 0 s
  | .obj o => o.keys.foldl (fun s prop => iterator (o.get prop) (.str prop) collection s) s

/-- The function `_.filter`; the state of the callback is the array `arr`. -/
def filter (collection : Coll) (iterator : Val → Val) : List Val :=
  each collection
    (fun value _ _ arr => if truthy (iterator value) then arr ++ [value] else arr) []

/-- The function `_.reject`. -/
def reject (collection : Coll) (iterator : Val → Val) : List Val :=
  filter collection (fun value => .bool (strictEq (iterator value) (.bool false)))

/-- The function `_.uniq`: every element is written as a property name of `locations`,
then the property names are pushed. -/
def uniq (array : List Val) : List Val :=
  let locations : Obj := array.foldl (fun locations x => locations.set (toKey x) (.bool true)) []
  locations.keys.foldl (fun arr i => arr ++ [.str i]) []

/-- The function `_.map`: the loop `for (var i = 0; i < array.length; i++)` pushing
`iterator(array[i])`.  The comparison `i < array.length` is false when the length is not
a number, and the counter runs over `0, 1, ...` below the length otherwise. -/
def map (array : Coll) (iterator : Val → Val) : List Val :=
  match toNumber array.length with
  | .none => []
  | .some len => (List.range len.toNat).foldl (fun arr i => arr ++ [iterator (array.at i)]) []

/-- The function `_.reduce`; the state of the callback is the variable `initialValue`,
which is `undefined` when the argument is omitted. -/
def reduce (collection : Coll) (iterator : Val → Val → Val) (initialValue : Val) : Val :=
  each collection
    (fun value _ _ initialValue =>
      if strictEq initialValue .undefined then value else iterator initialValue value)
    initialValue

/-- The function `_.contains`. -/
def contains (collection : Coll) (target : Val) : Val :=
  reduce collection (fun wasFound item => jsOr wasFound (.bool (strictEq item target)))
    (.bool false)

/-- The function `_.every`; an omitted iterator is `none`. -/
def every (collection : Coll) (iterator : Option (Val → Val)) : Val :=
  match strictEq collection.length (.num 0), iterator with
  | true, _ => .bool true
  | false, .none => .bool true
  | false, .some it =>
    reduce collection (fun isTrue item => jsAnd isTrue (jsNot (jsNot (it item)))) (.bool true)

/-- The function `_.some`; an omitted iterator is `none`. -/
def some (collection : Coll) (iterator : Option (Val → Val)) : Val :=
  let it : Val → Val := iterator.getD (fun value => jsNot (jsNot value))
  contains (.arr (map collection (fun value => jsNot (jsNot (it value))))) (.bool true)

/-! ## Function decorators -/

/-- The closure variables of a function returned by `_.once`. -/
structure OnceVars where
  alreadyCalled : Bool
  result : Val
  deriving DecidableEq, Repr

/-- The closure variables as `_.once(func)` leaves them: `alreadyCalled = false` and
`result` unassigned. -/
def once : OnceVars := { alreadyCalled := false, result := .undefined }

/-- One call, with receiver `thisArg` and argument list `arguments`, of the function
returned by `_.once(func)`. -/
def onceCall {σ : Type} (func : Val → List Val → σ → Val × σ) (thisArg : Val)
    (arguments : List Val) (c : OnceVars) (w : σ) : Val × OnceVars × σ :=
  if !c.alreadyCalled then
    let r := func thisArg arguments w
    (r.1, { alreadyCalled := true, result := r.1 }, r.2)
  else
    (c.result, c, w)

/-- The closure variable of a function returned by `_.memoize(func)`: `knownargs`,
initially the empty object. -/
def memoize : Obj := []

/-- One call, with argument `arg`, of the function returned by `_.memoize(func)`. -/
def memoizeCall {σ : Type} (func : Val → σ → Val × σ) (arg : Val) (knownargs : Obj) (w : σ) :
    Val × Obj × σ :=
  if truthy (contains (.obj knownargs) arg) then
    (knownargs.get (toKey arg), knownargs, w)
  else
    let r := func arg w
    (r.1, knownargs.set (toKey arg) r.1, r.2)

/-! ## Observing calls -/

/-- A sequence of calls of one stateful function, each on the state the previous call
left; the results are collected in call order. -/
def callAll {α ρ S : Type} (f : α → S → ρ × S) : List α → S → List ρ × S
  | [], s => ([], s)
  | a :: rest, s =>
    let r := f a s
    let rs := callAll f rest r.2
    (r.1 :: rs.1, rs.2)

/-- A function instrumented to record the receiver and arguments of each of its
invocations, the way the counting functions of a test do. -/
def spy {σ : Type} (func : Val → List Val → σ → Val × σ) (thisArg : Val) (arguments : List Val)
    (w : σ × List (Val × List Val)) : Val × (σ × List (Val × List Val)) :=
  let r := func thisArg arguments w.1
  (r.1, (r.2, w.2 ++ [(thisArg, arguments)]))

/-- A one-argument function instrumented to record the argument of each invocation. -/
def spy1 {σ : Type} (func : Val → σ → Val × σ) (arg : Val) (w : σ × List Val) :
    Val × (σ × List Val) :=
  let r := func arg w.1
  (r.1, (r.2, w.2 ++ [arg]))

/-- A function without effects, as a function on a world with nothing in it. -/
def pureFn (f : Val → Val) (arg : Val) (w : Unit) : Val × Unit := (f arg, w)

/-- The functions returned by `_.memoize(func)`, called in sequence on `args`:
the values returned, the final `knownargs` and the final world. -/
def memoizeRun {σ : Type} (func : Val → σ → Val × σ) (args : List Val) (w : σ) :
    List Val × Obj × σ :=
  callAll (fun arg (s : Obj × σ) => memoizeCall func arg s.1 s.2) args (memoize, w)

/-- The function returned by `_.once(func)`, called in sequence with the given
receivers and argument lists. -/
def onceRun {σ : Type} (func : Val → List Val → σ → Val × σ) (calls : List (Val × List Val))
    (w : σ) : List Val × OnceVars × σ :=
  callAll (fun (call : Val × List Val) (s : OnceVars × σ) =>
    onceCall func call.1 call.2 s.1 s.2) calls (once, w)

/-! ## Sample iterators -/

/-- The function `function (x) { return x + 1; }`. -/
def plusOne (x : Val) : Val := jsAdd x (.num 1)

/-! ## More of the collection helpers -/

/-- What a function returns when it returns either a value or a new array. -/
inductive Ret where
  | val (v : Val) : Ret
  | arr (xs : List Val) : Ret
  deriving DecidableEq, Repr

/-- The expression `array[i]` for an integer `i`: `undefined` outside the array. -/
def arrayAt (array : List Val) (i : Int) : Val :=
  if i < 0 then .undefined else array.getD i.toNat .undefined

/-- The call `array.slice(start)` for an integer `start`: a negative `start` counts from
the end of the array, and the result runs to the end. -/
def slice (array : List Val) (start : Int) : List Val :=
  let k : Int := if start < 0 then max ((array.length : Int) + start) 0
    else min start (array.length : Int)
  array.drop k.toNat

/-- The function `_.last`; an omitted `n` is `undefined`.  The test `isNaN(n)` holds when
the number form of `n` is `NaN`. -/
def last (array : List Val) (n : Val) : Ret :=
  let endIdx : Int := array.length
  match toNumber n with
  | .none => .val (arrayAt array (endIdx - 1))
  | .some m => if strictEq n (.num 0) then .arr [] else .arr (slice array (-m))

/-- The function `_.indexOf`; the state of the callback is the variable `ind`. -/
def indexOf (array : Coll) (target : Val) : Val :=
  each array
    (fun value index _ ind =>
      if strictEq value target && strictEq ind (.num (-1)) then index else ind)
    (.num (-1))

/-- The callback `reduce` hands to `each`, for an iterator with effects on a world: the
state is the variable `initialValue` together with the world. -/
def reduceStep {σ : Type} (iterator : Val → Val → σ → Val × σ) (st : Val × σ) (value : Val) :
    Val × σ :=
  if strictEq st.1 .undefined then (value, st.2) else iterator st.1 value st.2

/-- The function `_.reduce` for an iterator with effects on a world. -/
def reduceEff {σ : Type} (collection : Coll) (iterator : Val → Val → σ → Val × σ)
    (initialValue : Val) (w : σ) : Val × σ :=
  each collection (fun value _ _ st => reduceStep iterator st value) (initialValue, w)

/-- The plain left fold `f(...f(f(v, A[0]), A[1])..., A[n-1])` for an iterator with
effects on a world. -/
def foldEff {σ : Type} (iterator : Val → Val → σ → Val × σ) (xs : List Val)
    (initialValue : Val) (w : σ) : Val × σ :=
  xs.foldl (fun st value => iterator st.1 value st.2) (initialValue, w)

/-- A two-argument iterator instrumented to record the arguments of each of its
invocations. -/
def spy2 {σ : Type} (f : Val → Val → σ → Val × σ) (acc value : Val)
    (w : σ × List (Val × Val)) : Val × (σ × List (Val × Val)) :=
  ((f acc value w.1).1, ((f acc value w.1).2, w.2 ++ [(acc, value)]))

/-- An iterator of `each` instrumented to record the value, key and collection of each
of its invocations. -/
def spyEach {σ : Type} (iterator : Val → Val → Coll → σ → σ) (value key : Val)
    (collection : Coll) (w : σ × List (Val × Val × Coll)) : σ × List (Val × Val × Coll) :=
  (iterator value key collection w.1, w.2 ++ [(value, key, collection)])

/-! ## Objects -/

/-- The callback of `_.defaults` for one argument: the loop `for (var prop in arg)`
that writes `arg[prop]` to `obj[prop]` when `obj[prop] === undefined`. -/
def defaultsArg (obj arg : Obj) : Obj :=
  arg.keys.foldl
    (fun obj prop =>
      if strictEq (obj.get prop) .undefined then obj.set prop (arg.get prop) else obj)
    obj

/-- The function `_.defaults`.  The array `args` is all the arguments, `obj` first;
`_.each` visits an array in index order, and the elements here are objects, so the
loop is written as a fold over the list. -/
def defaults (obj : Obj) (sources : List Obj) : Obj :=
  let args : List Obj := obj :: sources
  args.foldl defaultsArg obj

/-! ## The host timer facility and `delay` -/

/-- A pending one-shot timer of the host: its handle, its delay, and what its firing
does to the world. -/
structure Timer (σ : Type) where
  handle : Nat
  wait : Val
  callback : σ → σ

/-- The timers the host holds, and the handle it hands out next. -/
structure Host (σ : Type) where
  timers : List (Timer σ)
  nextHandle : Nat

/-- Modelled from the spec: the host function `setTimeout`, which is not part of the
repository.  It schedules a one-shot execution of the callback for a later turn of the
scheduling loop, does not run it during the call, and returns a handle. -/
def setTimeout {σ : Type} (callback : σ → σ) (wait : Val) (h : Host σ) : Nat × Host σ :=
  (h.nextHandle,
    { timers := h.timers ++ [{ handle := h.nextHandle, wait := wait, callback := callback }],
      nextHandle := h.nextHandle + 1 })

/-- The function `_.delay`: `args` is the arguments after `func` and `wait`, and the
callback handed to `setTimeout` is `function () { func.apply(null, args) }`. -/
def delay {σ : Type} (func : Val → List Val → σ → Val × σ) (wait : Val) (args : List Val)
    (h : Host σ) (w : σ) : Nat × Host σ × σ :=
  let r := setTimeout (fun w1 => (func .null args w1).2) wait h
  (r.1, r.2, w)

/-! ## Shuffle -/

/-- The inner function `recurse` of `_.shuffle`, with the variable `arr` as state.  Each
call takes its `candidate` from the outcomes of the random source, and has no result
when they are used up.  The condition `count = array.length` is an assignment: its
value is `array.length`. -/
def recurse (array : List Val) : List Nat → Val → List Val → Option (Ret × List Val)
  | [], _, _ => .none
  | candidate :: outcomes, _, arr =>
    if truthy (contains (.arr arr) (.num candidate)) then
      match recurse array outcomes .undefined arr with
      | .none => .none
      | .some r => .some (.val .undefined, r.2)
    else if truthy (.num array.length) then
      .some (.arr arr, arr)
    else
      .some (.val .undefined, arr ++ [.num candidate])

/-- The function `_.shuffle`, given the candidates the random source yields. -/
def shuffle (array : List Val) (outcomes : List Nat) : Option Ret :=
  match recurse array outcomes (.num 0) [] with
  | .none => .none
  | .some r => .some r.1

/-! ## How `each` drives a callback that reads only the value -/

/-- The array loop of `each`, for a callback that takes only the value, is a left fold
over the elements. -/
theorem eachArr_value {σ : Type} (collection : Coll) (g : Val → σ → σ) (xs : List Val) (i : Nat)
    (s : σ) :
    eachArr collection (fun value _ _ s => g value s) xs i s = xs.foldl (fun s v => g v s) s := by
  induction xs generalizing i s with
  | nil => rfl
  | cons x rest ih => simp only [eachArr, List.foldl_cons]; exact ih _ _

/-- On every collection `each`, for a callback that takes only the value, is a left fold
over the values the collection holds. -/
theorem each_value {σ : Type} (collection : Coll) (g : Val → σ → σ) (s : σ) :
    each collection (fun value _ _ s => g value s) s
      = collection.items.foldl (fun s v => g v s) s := by
  cases collection with
  | arr xs => exact eachArr_value _ g xs 0 s
  | obj o => simp only [each, Coll.items, List.foldl_map]

/-- On every collection `reduce` folds its callback, test for `undefined` included, over
the values the collection holds. -/
theorem reduce_items (collection : Coll) (iterator : Val → Val → Val) (initialValue : Val) :
    reduce collection iterator initialValue
      = collection.items.foldl
          (fun acc value => if strictEq acc .undefined then value else iterator acc value)
          initialValue := by
  unfold reduce
  exact each_value collection
    (fun value acc => if strictEq acc .undefined then value else iterator acc value) initialValue

/-- The fold `contains` runs, started from a boolean, ends in a boolean: the disjunction
of the start and the strict comparisons. -/
theorem contains_fold (target : Val) (xs : List Val) (b : Bool) :
    xs.foldl
        (fun acc value =>
          if strictEq acc .undefined then value
          else jsOr acc (.bool (strictEq value target)))
        (.bool b)
      = .bool (b || xs.any (fun v => strictEq v target)) := by
  induction xs generalizing b with
  | nil => simp
  | cons x rest ih =>
    simp only [List.foldl_cons, List.any_cons]
    cases b with
    | true => simpa [strictEq, jsOr, truthy] using ih true
    | false => simpa [strictEq, jsOr, truthy] using ih (strictEq x target)

/-- On every collection `contains` is the disjunction of the strict comparisons. -/
theorem contains_any (collection : Coll) (target : Val) :
    contains collection target = .bool (collection.items.any (fun v => strictEq v target)) := by
  unfold contains
  rw [reduce_items, contains_fold]
  simp

/-- Pushing the elements that pass a test onto `acc`, one by one, appends the filtered
list. -/
theorem filter_fold (p : Val → Bool) (xs acc : List Val) :
    xs.foldl (fun arr v => if p v then arr ++ [v] else arr) acc = acc ++ xs.filter p := by
  induction xs generalizing acc with
  | nil => simp
  | cons x rest ih =>
    simp only [List.foldl_cons, List.filter_cons]
    cases h : p x <;> simp [ih]

/-- On every collection `filter` keeps, in order, the values whose test result is truthy. -/
theorem filter_items (collection : Coll) (iterator : Val → Val) :
    filter collection iterator = collection.items.filter (fun v => truthy (iterator v)) := by
  unfold filter
  rw [each_value collection (fun value arr => if truthy (iterator value) then arr ++ [value] else arr)]
  simpa using filter_fold (fun v => truthy (iterator v)) collection.items []

/-- On every collection `reject` keeps, in order, the values whose test result is the
boolean `false`. -/
theorem reject_items (collection : Coll) (iterator : Val → Val) :
    reject collection iterator
      = collection.items.filter (fun v => strictEq (iterator v) (.bool false)) := by
  unfold reject
  rw [filter_items]
  rfl

/-- The pushes of the loop of `map` build the list of the results in counter order. -/
theorem map_fold (array : Coll) (iterator : Val → Val) (n : Nat) :
    (List.range n).foldl (fun arr i => arr ++ [iterator (array.at i)]) []
      = (List.range n).map (fun i => iterator (array.at i)) := by
  induction n with
  | zero => rfl
  | succ n ih => simp [List.range_succ, ih]

/-- On an array `map` applies the iterator to each element in place. -/
theorem map_arr (xs : List Val) (iterator : Val → Val) :
    map (.arr xs) iterator = xs.map iterator := by
  simp only [map, Coll.length, toNumber, Int.toNat_ofNat, map_fold]
  apply List.ext_getElem
  · simp
  · intro i h1 h2
    simp only [List.length_map, List.length_range] at h1
    simp [Coll.at, List.getD_eq_getElem, h1]

/-- The fold `every` runs, started from a boolean, ends in a boolean: the conjunction of
the start and the truth tests. -/
theorem every_fold (it : Val → Val) (xs : List Val) (b : Bool) :
    xs.foldl
        (fun acc value =>
          if strictEq acc .undefined then value
          else jsAnd acc (jsNot (jsNot (it value))))
        (.bool b)
      = .bool (b && xs.all (fun v => truthy (it v))) := by
  induction xs generalizing b with
  | nil => simp
  | cons x rest ih =>
    simp only [List.foldl_cons, List.all_cons]
    cases b with
    | true => simpa [strictEq, jsAnd, jsNot, truthy] using ih (truthy (it x))
    | false => simpa [strictEq, jsAnd, truthy] using ih false

/-- When `collection.length` is not the number `0`, `every` with an iterator is the
conjunction of the tests over the values the collection holds. -/
theorem every_items (collection : Coll) (it : Val → Val)
    (h : strictEq collection.length (.num 0) = false) :
    every collection (.some it) = .bool (collection.items.all (fun v => truthy (it v))) := by
  unfold every
  rw [h]
  simp only
  rw [reduce_items, every_fold]
  simp

/-- On an array `every` with an iterator is the conjunction of the tests. -/
theorem every_arr (xs : List Val) (it : Val → Val) :
    every (.arr xs) (.some it) = .bool (xs.all (fun v => truthy (it v))) := by
  cases h : strictEq (Coll.arr xs).length (.num 0) with
  | true =>
    have hx : xs = [] := by
      simpa [Coll.length, strictEq] using h
    subst hx
    rfl
  | false => exact every_items _ it h

/-- On an array `some` is the disjunction of the tests. -/
theorem some_arr (xs : List Val) (iterator : Option (Val → Val)) :
    some (.arr xs) iterator
      = .bool (xs.any (fun v => truthy ((iterator.getD (fun value => jsNot (jsNot value))) v))) := by
  unfold some
  rw [contains_any, map_arr]
  simp [Coll.items, List.any_map, strictEq, jsNot, truthy, Function.comp_def]

/-- Once the wrapped function has run, later calls return the stored result and change
nothing. -/
theorem callAll_onceCall_called {σ : Type} (func : Val → List Val → σ → Val × σ)
    (calls : List (Val × List Val)) (v : Val) (w : σ) :
    callAll (fun (call : Val × List Val) (s : OnceVars × σ) =>
        onceCall func call.1 call.2 s.1 s.2)
        calls ({ alreadyCalled := true, result := v }, w)
      = (List.replicate calls.length v, ({ alreadyCalled := true, result := v }, w)) := by
  induction calls with
  | nil => rfl
  | cons c rest ih =>
    have h : onceCall func c.1 c.2 { alreadyCalled := true, result := v } w
        = (v, { alreadyCalled := true, result := v }, w) := rfl
    simp only [callAll, h, ih, List.length_cons, List.replicate_succ]

/-- What two calls with one argument do: the second call looks for the argument among the
stored results, so `func` runs once when its result is strictly equal to the argument
and was stored (the name is not `__proto__`), and twice otherwise. -/
theorem memoizeRun_twice_invocations {σ : Type} (func : Val → σ → Val × σ) (x : Val) (w : σ) :
    (memoizeRun (spy1 func) [x, x] (w, [])).2.2.2
      = if strictEq (func x w).1 x && decide (toKey x ≠ "__proto__") then [x] else [x, x] := by
  have h0 : contains (.obj memoize) x = .bool false := by
    rw [contains_any]; rfl
  by_cases hp : toKey x = "__proto__"
  · have h1 : ∀ (o : Obj) (v : Val), Obj.set o "__proto__" v = o := by
      intro o v
      simp [Obj.set]
    simp [memoizeRun, callAll, memoizeCall, h0, h1, hp, truthy, spy1]
  · have h1 : contains (.obj (Obj.set memoize (toKey x) (func x w).1)) x
        = .bool (strictEq (func x w).1 x) := by
      rw [contains_any]
      simp [memoize, Obj.set, Obj.put, hp, Coll.items, Obj.keys, Obj.get, List.lookup]
    cases h : strictEq (func x w).1 x <;>
      simp [memoizeRun, callAll, memoizeCall, h0, h1, h, hp, truthy, spy1]

/-- The fold `reduce` runs is the plain left fold when neither the start nor any result
of the iterator is `undefined`. -/
theorem reduce_fold_defined (f : Val → Val → Val) (hf : ∀ a b, f a b ≠ .undefined)
    (xs : List Val) (v : Val) (hv : v ≠ .undefined) :
    xs.foldl (fun acc value => if strictEq acc .undefined then value else f acc value) v
      = xs.foldl f v := by
  induction xs generalizing v with
  | nil => rfl
  | cons x rest ih =>
    have h : strictEq v .undefined = false := by
      cases v <;> simp_all [strictEq]
    simp only [List.foldl_cons, h, Bool.false_eq_true, if_false]
    exact ih _ (hf v x)

/-- With a defined initial value and an iterator that never returns `undefined`,
`reduce` is the left fold over the values the collection holds. -/
theorem reduce_eq_foldl_of_defined (collection : Coll) (f : Val → Val → Val)
    (hf : ∀ a b, f a b ≠ .undefined) (v : Val) (hv : v ≠ .undefined) :
    reduce collection f v = collection.items.foldl f v := by
  rw [reduce_items]
  exact reduce_fold_defined f hf _ v hv

/-- On the empty array `reduce` returns the initial value. -/
theorem reduce_empty (f : Val → Val → Val) (v : Val) : reduce (.arr []) f v = v := rfl

/-- The example of the doc comment: `reduce([1, 2, 3], +, 0)` is `6`. -/
theorem reduce_sum_example :
    reduce (.arr [.num 1, .num 2, .num 3]) jsAdd (.num 0) = .num 6 := by
  decide

/-! ## The claims -/

/-- C1, evaluated on the source: with `func = function (x) { return x + 1; }` the
memoized function, called twice with `3`, invokes `func` two times (the recorded
arguments are `3, 3`), because the second call looks for `3` among the stored results,
where only `4` is found.  The claim says one invocation. -/
theorem memoize_same_argument_invokes_twice :
    memoizeRun (spy1 (pureFn plusOne)) [.num 3, .num 3] ((), [])
      = ([.num 4, .num 4], [("3", .num 4)], ((), [.num 3, .num 3])) := by
  decide

/-- C2, evaluated on the source: with `func = function (x) { return x + 1; }` the calls
`m(3)` then `m(4)` return `4` and `undefined`, while `func(4)` is `5`: the second call
finds `4` among the stored results and reads the property `"4"`, which was never
written. -/
theorem memoize_returns_undefined_for_new_argument :
    memoizeRun (pureFn plusOne) [.num 3, .num 4] () = ([.num 4, .undefined], [("3", .num 4)], ())
      ∧ plusOne (.num 4) = .num 5 := by
  decide

/-- C3, evaluated on the source: with the test `function (x) { return x; }` on
`[0, 1, 2]`, `filter` keeps `1, 2` and `reject` keeps nothing, so the element `0` is in
neither output: `reject` keeps an element only when the test returns the boolean
`false`. -/
theorem filter_reject_drop_falsy_non_boolean :
    filter (.arr [.num 0, .num 1, .num 2]) (fun x => x) = [.num 1, .num 2]
      ∧ reject (.arr [.num 0, .num 1, .num 2]) (fun x => x) = [] := by
  decide

/-- C4, evaluated on the source: with an iterator that returns `undefined`,
`reduce([1, 2], f, 0)` is `2`, while the left fold `f(f(0, 1), 2)` is `undefined`: the
accumulator is tested against `undefined` before every element, so the second element
replaces it and `f` is not called on it. -/
theorem reduce_reseeds_after_undefined_result :
    reduce (.arr [.num 1, .num 2]) (fun _ _ => .undefined) (.num 0) = .num 2
      ∧ List.foldl (fun _ _ => Val.undefined) (.num 0) [Val.num 1, Val.num 2] = .undefined := by
  decide

/-- C5, evaluated on the source: with `f = function (a, b) { return a; }` and no initial
value, `reduce([undefined, 5], f)` is `5`, while the fold of `f` over `[5]` from the
first element `undefined` is `undefined`: the first element does not stay the seed, the
second one replaces it and `f` is never called. -/
theorem reduce_without_initial_skips_undefined_seed :
    reduce (.arr [.undefined, .num 5]) (fun a _ => a) .undefined = .num 5
      ∧ List.foldl (fun a _ => a) Val.undefined [Val.num 5] = .undefined := by
  decide

/-- C6: for every function `func`, every world `w` and every sequence of one or more
calls of one function returned by `once(func)`, `func` is invoked exactly once, with the
receiver and the arguments of the first call; every call returns the value of that
invocation, and the world is left as that invocation left it. -/
theorem once_invokes_func_exactly_once {σ : Type} (func : Val → List Val → σ → Val × σ)
    (w : σ) (first : Val × List Val) (rest : List (Val × List Val)) :
    onceRun (spy func) (first :: rest) (w, [])
      = (List.replicate (rest.length + 1) (func first.1 first.2 w).1,
          { alreadyCalled := true, result := (func first.1 first.2 w).1 },
          ((func first.1 first.2 w).2, [first])) := by
  have h : onceCall (spy func) first.1 first.2 once (w, [])
      = ((func first.1 first.2 w).1,
          { alreadyCalled := true, result := (func first.1 first.2 w).1 },
          ((func first.1 first.2 w).2, [first])) := rfl
  simp only [onceRun, callAll, h, callAll_onceCall_called, List.replicate_succ]

/-- C7, evaluated on the source: `uniq([1, 2, 2, 3, 1])` is the array of the strings
`"1", "2", "3"`, the property names of `locations`; it holds none of the numbers
`1, 2, 3`. -/
theorem uniq_returns_property_names :
    uniq [.num 1, .num 2, .num 2, .num 3, .num 1] = [.str "1", .str "2", .str "3"]
      ∧ contains (.arr (uniq [.num 1, .num 2, .num 2, .num 3, .num 1])) (.num 1) = .bool false := by
  decide

/-- C8, evaluated on the source: on the mapping with the single property `a: 1` and no
iterator, `some` returns `false` although the item `1` is truthy: `map` loops up to
`collection.length`, which a mapping does not have, so no item is tested. -/
theorem some_false_on_mapping_with_truthy_item :
    some (.obj [("a", .num 1)]) .none = .bool false
      ∧ (Coll.obj [("a", .num 1)]).items.any truthy = true := by
  decide

/-- C9, evaluated on the source: on the mapping with the properties `width: 3` and
`length: 0` and the test `function (x) { return x; }`, `every` returns `true` although
the test is falsy on the item `0`: the guard `collection.length === 0` reads the
property named `length`. -/
theorem every_true_on_mapping_with_zero_length_property :
    every (.obj [("width", .num 3), ("length", .num 0)]) (.some (fun x => x)) = .bool true
      ∧ (Coll.obj [("width", .num 3), ("length", .num 0)]).items.all truthy = false := by
  decide

/-- C10: for every collection, array or mapping, and every target, `contains` returns a
boolean, and it returns `true` exactly when some value held by the collection is
strictly equal to the target. -/
theorem contains_iff_some_item_strictEq (collection : Coll) (target : Val) :
    (contains collection target = .bool true
        ↔ ∃ v ∈ collection.items, strictEq v target = true)
      ∧ (contains collection target = .bool true ∨ contains collection target = .bool false) := by
  rw [contains_any]
  constructor
  · simp
  · cases collection.items.any (fun v => strictEq v target) <;> simp

/-! ## Second part: supporting lemmas -/

/-- The array loop of `each` is a left fold over the elements paired with their
indices. -/
theorem eachArr_enumFrom {σ : Type} (collection : Coll) (iterator : Val → Val → Coll → σ → σ)
    (xs : List Val) (i : Nat) (s : σ) :
    eachArr collection iterator xs i s
      = (xs.enumFrom i).foldl (fun s p => iterator p.2 (.num p.1) collection s) s := by
  induction xs generalizing i s with
  | nil => rfl
  | cons x rest ih => simp only [eachArr, List.enumFrom_cons, List.foldl_cons]; exact ih _ _

/-- The array loop of `each` with a recording iterator: the record grows by the visited
triples, in index order, and the state is the one the plain iterator produces. -/
theorem eachArr_spyEach {σ : Type} (collection : Coll) (iterator : Val → Val → Coll → σ → σ)
    (xs : List Val) (i : Nat) (s : σ) (log : List (Val × Val × Coll)) :
    eachArr collection (spyEach iterator) xs i (s, log)
      = (eachArr collection iterator xs i s,
          log ++ (xs.enumFrom i).map (fun p => (p.2, Val.num p.1, collection))) := by
  induction xs generalizing i s log with
  | nil => simp [eachArr]
  | cons x rest ih =>
    simp only [eachArr, spyEach, ih, List.enumFrom_cons, List.map_cons, List.append_assoc,
      List.singleton_append]

/-- The fold `indexOf` runs keeps an index once it is set. -/
theorem indexOf_fold_set (target : Val) (l : List (Nat × Val)) (k : Nat) :
    l.foldl
        (fun ind p =>
          if strictEq p.2 target && strictEq ind (.num (-1)) then Val.num p.1 else ind)
        (.num k)
      = .num k := by
  induction l with
  | nil => rfl
  | cons p rest ih =>
    have h : strictEq (Val.num (k : Int)) (.num (-1)) = false := by
      simp only [strictEq, decide_eq_false_iff_not, Val.num.injEq]
      omega
    simp only [List.foldl_cons, h, Bool.and_false, Bool.false_eq_true, if_false, ih]

/-- The fold `indexOf` runs, started from `-1` at counter `i`, ends at the counter of
the first element strictly equal to the target, or at `-1` when there is none. -/
theorem indexOf_fold (target : Val) (xs : List Val) (i : Nat) :
    (xs.enumFrom i).foldl
        (fun ind p =>
          if strictEq p.2 target && strictEq ind (.num (-1)) then Val.num p.1 else ind)
        (.num (-1))
      = if xs.findIdx (fun v => strictEq v target) < xs.length
          then .num ((i + xs.findIdx (fun v => strictEq v target) : Nat)) else .num (-1) := by
  induction xs generalizing i with
  | nil => simp
  | cons x rest ih =>
    simp only [List.enumFrom_cons, List.foldl_cons, List.findIdx_cons, List.length_cons]
    cases hx : strictEq x target with
    | true =>
      have h1 : strictEq (Val.num (-1)) (.num (-1)) = true := by decide
      simp only [h1, Bool.and_self, if_true, cond_true]
      rw [indexOf_fold_set]
      simp
    | false =>
      simp only [Bool.false_and, Bool.false_eq_true, if_false, ih, cond_false,
        Nat.add_lt_add_iff_right]
      have e : i + 1 + List.findIdx (fun v => strictEq v target) rest
          = i + (List.findIdx (fun v => strictEq v target) rest + 1) := by omega
      rw [e]

/-- On an array `indexOf` is the position of the first element strictly equal to the
target when there is one, and `-1` otherwise. -/
theorem indexOf_arr (A : List Val) (target : Val) :
    indexOf (.arr A) target
      = if A.findIdx (fun v => strictEq v target) < A.length
          then .num (A.findIdx (fun v => strictEq v target) : Nat) else .num (-1) := by
  unfold indexOf each
  simp only [eachArr_enumFrom]
  have h := indexOf_fold target A 0
  simpa using h

/-- A value is strictly equal to `undefined` exactly when it is `undefined`. -/
theorem strictEq_undefined (v : Val) : strictEq v .undefined = true ↔ v = .undefined := by
  cases v <;> simp [strictEq]

/-- Reading a property after a write of an own property: the written value at the written name, the old
value elsewhere. -/
theorem Obj.get_put (o : Obj) (k : String) (v : Val) (k1 : String) :
    (Obj.put o k v).get k1 = if k1 = k then v else o.get k1 := by
  induction o with
  | nil =>
    by_cases h : k1 = k
    · simp [Obj.put, Obj.get, List.lookup, h]
    · have hb : (k1 == k) = false := beq_eq_false_iff_ne.mpr h
      simp [Obj.put, Obj.get, List.lookup, h, hb]
  | cons p rest ih =>
    obtain ⟨kp, vp⟩ := p
    by_cases hp : kp = k
    · subst hp
      by_cases h : k1 = kp
      · simp [Obj.put, Obj.get, List.lookup, h]
      · have hb : (k1 == kp) = false := beq_eq_false_iff_ne.mpr h
        simp [Obj.put, Obj.get, List.lookup, h, hb]
    · by_cases h1 : k1 = kp
      · subst h1
        simp [Obj.put, Obj.get, List.lookup, hp]
      · have hb : (k1 == kp) = false := beq_eq_false_iff_ne.mpr h1
        have ih1 := ih
        simp only [Obj.get] at ih1
        simp [Obj.put, Obj.get, List.lookup, hp, h1, hb, ih1]

/-- Reading a property after the write `o[k] = v`: the written value at the written
name, unless that name is `__proto__`, and the old value elsewhere. -/
theorem Obj.get_set (o : Obj) (k : String) (v : Val) (k1 : String) :
    (Obj.set o k v).get k1 = if k1 = k ∧ k ≠ "__proto__" then v else o.get k1 := by
  unfold Obj.set
  by_cases hp : k = "__proto__"
  · simp [hp]
  · simp only [hp, if_false, Obj.get_put, ne_eq, not_false_eq_true, and_true]

/-- The loop of `defaults` over one argument leaves a property of `obj` whose value is
not `undefined` as it is. -/
theorem defaultsArg_get_of_defined (arg : Obj) (props : List String) (obj : Obj) (k : String)
    (h : obj.get k ≠ .undefined) :
    (props.foldl
        (fun obj prop =>
          if strictEq (obj.get prop) .undefined then obj.set prop (arg.get prop) else obj)
        obj).get k = obj.get k := by
  induction props generalizing obj with
  | nil => rfl
  | cons prop rest ih =>
    simp only [List.foldl_cons]
    by_cases hc : strictEq (obj.get prop) .undefined = true
    · have hne : k ≠ prop := by
        intro e
        subst e
        exact h ((strictEq_undefined _).mp hc)
      have hk : (obj.set prop (arg.get prop)).get k = obj.get k := by
        rw [Obj.get_set, if_neg (fun e => hne e.1)]
      simp only [hc, if_true]
      rw [ih _ (by rw [hk]; exact h), hk]
    · simp only [hc, Bool.false_eq_true, if_false]
      exact ih _ h

/-- The function `defaults` leaves every property of `obj` whose value is not
`undefined` as it is. -/
theorem defaults_get_of_defined (obj : Obj) (sources : List Obj) (k : String)
    (h : obj.get k ≠ .undefined) :
    (defaults obj sources).get k = obj.get k := by
  have key : ∀ (args : List Obj) (o : Obj), o.get k = obj.get k →
      (args.foldl defaultsArg o).get k = obj.get k := by
    intro args
    induction args with
    | nil => intro o ho; exact ho
    | cons a rest ih =>
      intro o ho
      simp only [List.foldl_cons]
      apply ih
      unfold defaultsArg
      rw [defaultsArg_get_of_defined a a.keys o k (by rw [ho]; exact h), ho]
  exact key (obj :: sources) obj rfl

/-- The lengths of two filtered lists add up to at most the length of the list when no
element passes both tests. -/
theorem filter_length_add_le (P Q : Val → Bool) (hPQ : ∀ v, ¬ (P v = true ∧ Q v = true))
    (xs : List Val) : (xs.filter P).length + (xs.filter Q).length ≤ xs.length := by
  induction xs with
  | nil => simp
  | cons x rest ih =>
    have h := hPQ x
    simp only [List.filter_cons, List.length_cons]
    cases hp : P x <;> cases hq : Q x <;> simp_all <;> omega

/-- The lengths of two filtered lists add up to the length of the list when every
element passes exactly one of the tests. -/
theorem filter_length_add_eq (P Q : Val → Bool) (hPQ : ∀ v, Q v = !P v)
    (xs : List Val) : (xs.filter P).length + (xs.filter Q).length = xs.length := by
  induction xs with
  | nil => simp
  | cons x rest ih =>
    have h := hPQ x
    simp only [List.filter_cons, List.length_cons]
    cases hp : P x <;> simp_all <;> omega

/-- The property names after a write of an own property: a new name is added last, an existing one changes
nothing. -/
theorem Obj.keys_put (o : Obj) (k : String) (v : Val) :
    (Obj.put o k v).keys = if k ∈ o.keys then o.keys else o.keys ++ [k] := by
  induction o with
  | nil => simp [Obj.put, Obj.keys]
  | cons p rest ih =>
    obtain ⟨kp, vp⟩ := p
    simp only [Obj.keys] at ih
    by_cases hp : kp = k
    · subst hp
      simp [Obj.put, Obj.keys]
    · have hp1 : ¬ k = kp := fun e => hp e.symm
      by_cases hm : k ∈ List.map Prod.fst rest
      · simp [Obj.put, Obj.keys, hp, hp1, hm, ih]
      · simp [Obj.put, Obj.keys, hp, hp1, hm, ih]

/-- The property names after the write `o[k] = v`: a new name other than `__proto__` is
added last, and nothing changes otherwise. -/
theorem Obj.keys_set (o : Obj) (k : String) (v : Val) :
    (Obj.set o k v).keys
      = if k = "__proto__" ∨ k ∈ o.keys then o.keys else o.keys ++ [k] := by
  unfold Obj.set
  by_cases hp : k = "__proto__"
  · simp [hp]
  · simp only [hp, if_false, Obj.keys_put, false_or]

/-- The first loop of `uniq`: the property names of `locations` stay pairwise
different, and they are the names there at the start and the string forms of the
elements other than `__proto__`. -/
theorem uniq_locations (array : List Val) (locations : Obj) (h : locations.keys.Nodup) :
    (array.foldl (fun locations x => locations.set (toKey x) (.bool true)) locations).keys.Nodup
      ∧ ∀ k, k ∈ (array.foldl (fun locations x => locations.set (toKey x) (.bool true))
            locations).keys
          ↔ k ∈ locations.keys ∨ (k ∈ array.map toKey ∧ k ≠ "__proto__") := by
  induction array generalizing locations with
  | nil => simp [h]
  | cons x rest ih =>
    have hn : (locations.set (toKey x) (.bool true)).keys.Nodup := by
      rw [Obj.keys_set]
      by_cases hm : toKey x = "__proto__" ∨ toKey x ∈ locations.keys
      · simp only [hm, if_true]; exact h
      · simp only [hm, if_false]
        have hm2 : toKey x ∉ locations.keys := fun e => hm (Or.inr e)
        exact List.Nodup.append h (List.nodup_singleton _) (by simpa using hm2)
    have hm : ∀ k, k ∈ (locations.set (toKey x) (.bool true)).keys
        ↔ k ∈ locations.keys ∨ (k = toKey x ∧ k ≠ "__proto__") := by
      intro k
      rw [Obj.keys_set]
      by_cases hx : toKey x = "__proto__" ∨ toKey x ∈ locations.keys
      · simp only [hx, if_true]
        constructor
        · intro hk; exact Or.inl hk
        · rintro (hk | ⟨rfl, hk2⟩)
          · exact hk
          · rcases hx with hx | hx
            · exact absurd hx hk2
            · exact hx
      · simp only [hx, if_false, List.mem_append, List.mem_singleton]
        constructor
        · rintro (hk | rfl)
          · exact Or.inl hk
          · exact Or.inr ⟨rfl, fun e => hx (Or.inl e)⟩
        · rintro (hk | ⟨rfl, _⟩)
          · exact Or.inl hk
          · exact Or.inr rfl
    obtain ⟨ih1, ih2⟩ := ih _ hn
    refine ⟨ih1, ?_⟩
    intro k
    simp only [List.foldl_cons, ih2, hm, List.map_cons, List.mem_cons]
    tauto

/-- The second loop of `uniq` pushes the property names as strings, in order. -/
theorem uniq_push (ks : List String) (arr : List Val) :
    ks.foldl (fun arr i => arr ++ [Val.str i]) arr = arr ++ ks.map Val.str := by
  induction ks generalizing arr with
  | nil => simp
  | cons k rest ih => simp [ih]

/-- On every collection `reduceEff` folds its callback over the values the collection
holds. -/
theorem reduceEff_items {σ : Type} (collection : Coll) (iterator : Val → Val → σ → Val × σ)
    (initialValue : Val) (w : σ) :
    reduceEff collection iterator initialValue w
      = collection.items.foldl (reduceStep iterator) (initialValue, w) := by
  unfold reduceEff
  exact each_value collection (fun value st => reduceStep iterator st value) (initialValue, w)

/-- With an iterator that has no effect, `reduceEff` returns what `reduce` returns and
leaves the world as it is. -/
theorem reduceEff_pure {σ : Type} (collection : Coll) (f : Val → Val → Val) (v : Val) (w : σ) :
    reduceEff collection (fun a b w1 => (f a b, w1)) v w = (reduce collection f v, w) := by
  rw [reduceEff_items, reduce_items]
  induction collection.items generalizing v with
  | nil => rfl
  | cons x rest ih =>
    simp only [List.foldl_cons]
    cases h : strictEq v .undefined <;> simp [reduceStep, h, ih]

/-- A run of `reduce` records at most one invocation per element. -/
theorem reduceStep_log_le {σ : Type} (f : Val → Val → σ → Val × σ) (xs : List Val)
    (st : Val × (σ × List (Val × Val))) :
    (xs.foldl (reduceStep (spy2 f)) st).2.2.length ≤ st.2.2.length + xs.length := by
  induction xs generalizing st with
  | nil => simp
  | cons x rest ih =>
    simp only [List.foldl_cons, List.length_cons]
    have h := ih (reduceStep (spy2 f) st x)
    cases hu : strictEq st.1 .undefined
    · simp only [reduceStep, hu, Bool.false_eq_true, if_false, spy2, List.length_append,
        List.length_singleton] at h ⊢
      omega
    · simp only [reduceStep, hu, if_true] at h ⊢
      omega

/-- A run of `reduce` that records one invocation per element never has an `undefined`
accumulator before an element. -/
theorem reduceStep_log_full {σ : Type} (f : Val → Val → σ → Val × σ) (xs : List Val)
    (st : Val × (σ × List (Val × Val)))
    (h : (xs.foldl (reduceStep (spy2 f)) st).2.2.length = st.2.2.length + xs.length) :
    ∀ i, i < xs.length →
      strictEq ((xs.take i).foldl (reduceStep (spy2 f)) st).1 .undefined = false := by
  induction xs generalizing st with
  | nil => intro i hi; simp at hi
  | cons x rest ih =>
    simp only [List.foldl_cons, List.length_cons] at h
    have hle := reduceStep_log_le f rest (reduceStep (spy2 f) st x)
    cases hu : strictEq st.1 .undefined
    · have hst : (reduceStep (spy2 f) st x).2.2.length = st.2.2.length + 1 := by
        simp [reduceStep, hu, spy2]
      intro i hi
      cases i with
      | zero => simpa using hu
      | succ j =>
        simp only [List.take_succ_cons, List.foldl_cons]
        apply ih (reduceStep (spy2 f) st x)
        · rw [h, hst]; omega
        · simpa using hi
    · have hst : (reduceStep (spy2 f) st x).2.2.length = st.2.2.length := by
        simp [reduceStep, hu]
      omega

/-- The plain left fold records one invocation per element. -/
theorem foldEff_log_length {σ : Type} (f : Val → Val → σ → Val × σ) (xs : List Val)
    (st : Val × (σ × List (Val × Val))) :
    (xs.foldl (fun st value => spy2 f st.1 value st.2) st).2.2.length
      = st.2.2.length + xs.length := by
  induction xs generalizing st with
  | nil => simp
  | cons x rest ih =>
    simp only [List.foldl_cons, List.length_cons, ih]
    simp only [spy2, List.length_append, List.length_singleton]
    omega

/-- A run of `reduce` with no `undefined` accumulator before an element is the plain
left fold. -/
theorem reduceStep_fold_of_defined {σ : Type} (F : Val → Val → σ → Val × σ) (xs : List Val)
    (st : Val × σ)
    (h : ∀ i, i < xs.length →
      strictEq ((xs.take i).foldl (reduceStep F) st).1 .undefined = false) :
    xs.foldl (reduceStep F) st = xs.foldl (fun st value => F st.1 value st.2) st := by
  induction xs generalizing st with
  | nil => rfl
  | cons x rest ih =>
    have h0 : strictEq st.1 .undefined = false := by
      simpa using h 0 (by simp)
    have hs : reduceStep F st x = F st.1 x st.2 := by
      simp [reduceStep, h0]
    simp only [List.foldl_cons]
    rw [hs]
    apply ih
    intro i hi
    have := h (i + 1) (by simpa using hi)
    simpa only [List.take_succ_cons, List.foldl_cons, hs] using this

/-- The fold of the pure `reduce` with no `undefined` accumulator before an element is
the plain left fold. -/
theorem reduce_fold_of_defined (f : Val → Val → Val) (xs : List Val) (v : Val)
    (h : ∀ i, i < xs.length →
      strictEq ((xs.take i).foldl
        (fun acc value => if strictEq acc .undefined then value else f acc value) v)
        .undefined = false) :
    xs.foldl (fun acc value => if strictEq acc .undefined then value else f acc value) v
      = xs.foldl f v := by
  induction xs generalizing v with
  | nil => rfl
  | cons x rest ih =>
    have h0 : strictEq v .undefined = false := by
      simpa using h 0 (by simp)
    simp only [List.foldl_cons, h0, Bool.false_eq_true, if_false]
    apply ih
    intro i hi
    have := h (i + 1) (by simpa using hi)
    simpa only [List.take_succ_cons, List.foldl_cons, h0, Bool.false_eq_true, if_false]
      using this

/-! ## The claims, second part -/

/-- C11: for every array `A` and target `t`, `indexOf(A, t)` is `-1` exactly when no
element of `A` is strictly equal to `t`, and it is the index `i` exactly when `A[i]` is
strictly equal to `t` and no element at a smaller index is: the first occurrence. -/
theorem indexOf_first_occurrence (A : List Val) (t : Val) :
    (indexOf (.arr A) t = .num (-1) ↔ ∀ v ∈ A, strictEq v t = false)
      ∧ ∀ i : Nat, indexOf (.arr A) t = .num i
          ↔ (∃ v, A[i]? = Option.some v ∧ strictEq v t = true)
            ∧ ∀ j, j < i → ∀ v, A[j]? = Option.some v → strictEq v t = false := by
  rw [indexOf_arr]
  have hle := @List.findIdx_le_length _ (fun v => strictEq v t) A
  constructor
  · rw [← @List.findIdx_eq_length _ (fun v => strictEq v t) A]
    by_cases h : A.findIdx (fun v => strictEq v t) < A.length
    · simp only [h, if_true, Val.num.injEq]
      constructor
      · intro h1; omega
      · intro h1; omega
    · simp only [h, if_false, true_iff]
      omega
  · intro i
    by_cases h : A.findIdx (fun v => strictEq v t) < A.length
    · simp only [h, if_true, Val.num.injEq, Nat.cast_inj]
      constructor
      · intro e
        subst e
        refine ⟨⟨A[A.findIdx (fun v => strictEq v t)], List.getElem?_eq_getElem h,
          List.findIdx_getElem (w := h)⟩, ?_⟩
        intro j hj v hv
        have hjl : j < A.length := by omega
        rw [List.getElem?_eq_getElem hjl] at hv
        cases hv
        simpa using List.not_of_lt_findIdx hj
      · rintro ⟨⟨v, hv, hp⟩, hmin⟩
        obtain ⟨hi, rfl⟩ := List.getElem?_eq_some_iff.mp hv
        refine (List.findIdx_eq hi).mpr ⟨hp, ?_⟩
        intro j hj
        exact hmin j hj _ (List.getElem?_eq_getElem (by omega))
    · simp only [h, if_false]
      constructor
      · intro e
        simp only [Val.num.injEq] at e
        omega
      · rintro ⟨⟨v, hv, hp⟩, _⟩
        exfalso
        apply h
        exact List.findIdx_lt_length_of_exists ⟨v, List.getElem?_mem hv, hp⟩

/-- C12: for every array `A` and every iterator, `each(A, iterator)` invokes the
iterator exactly `length(A)` times, and its `i`-th invocation receives the value `A[i]`,
the index `i` and the collection `A`: index order, nothing skipped or repeated.  The
state the iterator works on ends as the plain run leaves it. -/
theorem each_invokes_in_index_order {σ : Type} (A : List Val)
    (iterator : Val → Val → Coll → σ → σ) (s : σ) :
    (each (.arr A) (spyEach iterator) (s, [])).1 = each (.arr A) iterator s
      ∧ (each (.arr A) (spyEach iterator) (s, [])).2.length = A.length
      ∧ ∀ i : Nat, (each (.arr A) (spyEach iterator) (s, [])).2[i]?
          = A[i]?.map (fun v => (v, Val.num i, Coll.arr A)) := by
  have h : each (.arr A) (spyEach iterator) (s, [])
      = (each (.arr A) iterator s, A.enum.map (fun p => (p.2, Val.num p.1, Coll.arr A))) := by
    simp only [each, eachArr_spyEach, List.nil_append, List.enum]
  rw [h]
  refine ⟨rfl, by simp, ?_⟩
  intro i
  simp only [List.getElem?_map, List.getElem?_enum, Option.map_map]
  rfl

/-- C13: for every array `A` and function `f`, `map(A, f)` has the length of `A`, and
its `i`-th element is `f(A[i])` for every index `i`.  The result is a new list; the
argument is a value and is not changed. -/
theorem map_same_length_and_elements (A : List Val) (f : Val → Val) :
    (map (.arr A) f).length = A.length
      ∧ ∀ i : Nat, (map (.arr A) f)[i]? = A[i]?.map f := by
  rw [map_arr]
  exact ⟨List.length_map _ _, fun i => List.getElem?_map _ _ _⟩

/-- C14: for every function `func`, wait time and trailing arguments `args`, the call
`delay(func, wait, ...args)` does not invoke `func` (the world and the record of
invocations are as before the call), adds exactly one timer to those of the host, with
delay `wait`, and returns the handle of that timer; the firing of the timer invokes
`func` once, with exactly the arguments `args`. -/
theorem delay_registers_one_timer {σ : Type} (func : Val → List Val → σ → Val × σ) (wait : Val)
    (args : List Val) (h : Host (σ × List (Val × List Val))) (w : σ)
    (log : List (Val × List Val)) :
    (delay (spy func) wait args h (w, log)).2.2 = (w, log)
      ∧ ∃ t : Timer (σ × List (Val × List Val)),
          (delay (spy func) wait args h (w, log)).2.1.timers = h.timers ++ [t]
            ∧ t.handle = (delay (spy func) wait args h (w, log)).1
            ∧ t.wait = wait
            ∧ ∀ (w1 : σ) (log1 : List (Val × List Val)),
                t.callback (w1, log1) = ((func .null args w1).2, log1 ++ [(.null, args)]) := by
  refine ⟨rfl, ⟨_, rfl, rfl, rfl, ?_⟩⟩
  intro w1 log1
  rfl

/-- C16: for every array `A` and every integer `n >= 0`, `last(A, n)` is the array of
the last `min(n, length(A))` elements of `A` in their order: the empty array for
`n = 0`, all of `A` when `n >= length(A)`.  With `n` undefined, `last(A)` is the last
element of `A` (`undefined` when `A` is empty). -/
theorem last_returns_last_elements (A : List Val) (n : Nat) :
    last A (.num n) = .arr (A.drop (A.length - min n A.length))
      ∧ (A.drop (A.length - min n A.length)).length = min n A.length
      ∧ last A (.num 0) = .arr []
      ∧ (A.length ≤ n → last A (.num n) = .arr A)
      ∧ last A .undefined = .val (A.getLast?.getD .undefined) := by
  have main : ∀ m : Nat, last A (.num m) = .arr (A.drop (A.length - min m A.length)) := by
    intro m
    cases m with
    | zero => simp [last, toNumber, strictEq]
    | succ k =>
      have hne : strictEq (Val.num ((k + 1 : Nat) : Int)) (.num 0) = false := by
        simp only [strictEq, decide_eq_false_iff_not, Val.num.injEq]
        omega
      simp only [last, toNumber, hne, Bool.false_eq_true, if_false, slice, Ret.arr.injEq]
      congr 1
      split <;> omega
  refine ⟨main n, by simp; omega, by simp [last, toNumber, strictEq], ?_, ?_⟩
  · intro hn
    rw [main n, Nat.min_eq_right hn]
    simp
  · simp only [last, toNumber, arrayAt, Ret.val.injEq]
    cases A with
    | nil => simp
    | cons x rest =>
      have h0 : ¬ (((x :: rest).length : Int) - 1 < 0) := by
        simp only [List.length_cons, Nat.cast_add, Nat.cast_one]
        omega
      simp only [h0, if_false, List.getLast?_eq_getElem?, List.getD_eq_getElem?_getD]
      congr 2
      simp only [List.length_cons, Nat.cast_add, Nat.cast_one]
      omega

/-- C15, evaluated on the source: `defaults({a: undefined}, {a: 1})` writes `1` to the
key `a`, which exists in `obj` before the call: the test `obj[prop] === undefined`
takes a key whose value is `undefined` for an absent key. -/
theorem defaults_overwrites_undefined_valued_key :
    defaults [("a", .undefined)] [[("a", .num 1)]] = [("a", .num 1)]
      ∧ "a" ∈ Obj.keys [("a", .undefined)]
      ∧ Obj.get [("a", .undefined)] "a" = .undefined
      ∧ (defaults [("a", .undefined)] [[("a", .num 1)]]).get "a" = .num 1 := by
  decide

/-- C17, evaluated on the source: whatever the random source yields, `shuffle` returns
the empty array on every non-empty array, and `undefined` on the empty array: the
condition `count = array.length` is an assignment, so the first call of `recurse`
returns `arr` before anything is pushed, or pushes one index and returns nothing. -/
theorem shuffle_returns_no_permutation (x : Val) (xs : List Val) (candidate : Nat)
    (outcomes : List Nat) :
    shuffle (x :: xs) (candidate :: outcomes) = .some (.arr [])
      ∧ shuffle [] (candidate :: outcomes) = .some (.val .undefined) := by
  have h : contains (.arr []) (.num candidate) = .bool false := rfl
  constructor
  · have hl : decide (((x :: xs).length : Int) ≠ 0) = true := by
      simp only [List.length_cons, decide_eq_true_eq]
      omega
    simp only [shuffle, recurse, h, truthy, hl, Bool.false_eq_true, if_false, if_true]
  · simp [shuffle, recurse, h, truthy]

/-- C19: for every array `A` and every test `p`, whatever it returns, `filter` keeps the
elements on which `p` is truthy and `reject` those on which `p` is the boolean `false`;
no element passes both, so the two lengths add up to at most `length(A)`.  When `p`
returns only `true` and `false`, `reject(A, p)` is `filter(A, x => !p(x))` and the two
lengths add up to `length(A)`. -/
theorem filter_reject_lengths (A : List Val) (p : Val → Val) :
    filter (.arr A) p = A.filter (fun v => truthy (p v))
      ∧ reject (.arr A) p = A.filter (fun v => strictEq (p v) (.bool false))
      ∧ (∀ v, ¬ (truthy (p v) = true ∧ strictEq (p v) (.bool false) = true))
      ∧ (filter (.arr A) p).length + (reject (.arr A) p).length ≤ A.length
      ∧ ((∀ x, p x = .bool true ∨ p x = .bool false) →
          reject (.arr A) p = filter (.arr A) (fun x => jsNot (p x))
            ∧ (filter (.arr A) p).length + (reject (.arr A) p).length = A.length) := by
  have hd : ∀ v, ¬ (truthy (p v) = true ∧ strictEq (p v) (.bool false) = true) := by
    intro v
    cases h : p v <;> simp [truthy, strictEq]
  rw [filter_items, reject_items, filter_items]
  refine ⟨rfl, rfl, hd, filter_length_add_le _ _ hd A, ?_⟩
  intro hb
  have hq : ∀ v, strictEq (p v) (.bool false) = !truthy (p v) := by
    intro v
    rcases hb v with h | h <;> simp [h, truthy, strictEq]
  refine ⟨?_, filter_length_add_eq _ _ hq A⟩
  simp only [Coll.items]
  apply List.filter_congr
  intro v _
  simp [hq v, jsNot, truthy]

/-- C20, evaluated at `A = ["__proto__", "a"]`: `uniq(A)` is `["a"]`.  The write
`locations["__proto__"] = true` creates no property, so the string form `__proto__` of
the first element is not in the result. -/
theorem uniq_drops_proto_name :
    uniq [.str "__proto__", .str "a"] = [.str "a"]
      ∧ toKey (.str "__proto__") = "__proto__"
      ∧ Val.str (toKey (.str "__proto__")) ∉ uniq [.str "__proto__", .str "a"] := by
  decide

/-- C20 as amended: for every array `A`, `uniq(A)` is an array of strings, no two of them
equal; a value is in it exactly when it is the string form of an element of `A` and is
not the name `__proto__`, so its length is the number of different such string forms.
The number `1` and the string `"1"` yield the single element `"1"`. -/
theorem uniq_string_forms (A : List Val) :
    (uniq A).Nodup
      ∧ (∀ v, v ∈ uniq A ↔ ∃ x ∈ A, toKey x ≠ "__proto__" ∧ v = .str (toKey x))
      ∧ (uniq A).length
          = ((A.map toKey).filter (fun k => decide (k ≠ "__proto__"))).dedup.length
      ∧ uniq [.num 1, .str "1"] = [.str "1"] := by
  obtain ⟨hn, hm⟩ := uniq_locations A [] (by simp [Obj.keys])
  have hu : uniq A
      = (A.foldl (fun locations x => Obj.set locations (toKey x) (.bool true)) []).keys.map
          Val.str := by
    simp only [uniq, uniq_push, List.nil_append]
  have hinj : Function.Injective Val.str := fun a b h => by cases h; rfl
  refine ⟨?_, ?_, ?_, by decide⟩
  · rw [hu]
    exact hn.map hinj
  · intro v
    rw [hu]
    simp only [List.mem_map, hm]
    constructor
    · rintro ⟨k, hk, rfl⟩
      rcases hk with hk | ⟨⟨x, hx, rfl⟩, hne⟩
      · simp [Obj.keys] at hk
      · exact ⟨x, hx, hne, rfl⟩
    · rintro ⟨x, hx, hne, rfl⟩
      exact ⟨toKey x, Or.inr ⟨⟨x, hx, rfl⟩, hne⟩, rfl⟩
  · rw [hu, List.length_map]
    apply List.Perm.length_eq
    apply (List.perm_ext_iff_of_nodup hn (List.nodup_dedup _)).mpr
    intro k
    rw [hm, List.mem_dedup, List.mem_filter]
    simp [Obj.keys]

/-- C18, the values of `reduce` and of the plain fold compared at `A = [1, undefined]`,
`f = function () { return undefined; }` and `v = 0`: the accumulator is `undefined`
before `A[1]`, and yet `reduce` and the fold return the same value, `undefined`.  So
the two values are not equal exactly on the runs with no `undefined` accumulator. -/
theorem reduce_value_equal_despite_undefined_accumulator :
    ¬ (reduce (.arr [.num 1, .undefined]) (fun _ _ => .undefined) (.num 0)
          = [Val.num 1, Val.undefined].foldl (fun _ _ => Val.undefined) (.num 0)
        ↔ ∀ i, i < [Val.num 1, Val.undefined].length →
            strictEq
              (reduce (.arr ([Val.num 1, Val.undefined].take i)) (fun _ _ => .undefined)
                (.num 0))
              .undefined = false) := by
  decide

/-- C18 as amended: `reduce` tests the accumulator against `undefined` before every
element.  For every array `A`, iterator `f` (its invocations recorded), start `v` and
index `i`: when the accumulator is `undefined` just before `A[i]`, the element `A[i]`
becomes the accumulator and nothing is invoked (world and record stay as they are);
otherwise `f` is invoked on the accumulator and `A[i]`.  Hence, on every run where no
accumulator before an element is `undefined`, `reduce` returns the value of the plain
left fold; and the run of `reduce`, invocations included, is the run of the fold on
those runs and on no other. -/
theorem reduce_tests_undefined_before_every_element {σ : Type} (A : List Val)
    (f : Val → Val → σ → Val × σ) (v : Val) (w : σ) :
    (∀ (i : Nat) (x : Val), A[i]? = Option.some x →
        reduceEff (.arr (A.take (i + 1))) (spy2 f) v (w, [])
          = if strictEq (reduceEff (.arr (A.take i)) (spy2 f) v (w, [])).1 .undefined
            then (x, (reduceEff (.arr (A.take i)) (spy2 f) v (w, [])).2)
            else spy2 f (reduceEff (.arr (A.take i)) (spy2 f) v (w, [])).1 x
              (reduceEff (.arr (A.take i)) (spy2 f) v (w, [])).2)
      ∧ (reduceEff (.arr A) (spy2 f) v (w, []) = foldEff (spy2 f) A v (w, [])
          ↔ ∀ i, i < A.length →
              strictEq (reduceEff (.arr (A.take i)) (spy2 f) v (w, [])).1 .undefined = false)
      ∧ ∀ g : Val → Val → Val,
          (∀ i, i < A.length → strictEq (reduce (.arr (A.take i)) g v) .undefined = false) →
            reduce (.arr A) g v = A.foldl g v := by
  refine ⟨?_, ?_, ?_⟩
  · intro i x hx
    have ht : A.take (i + 1) = A.take i ++ [x] := by
      rw [List.take_succ, hx]
      rfl
    simp only [reduceEff_items, Coll.items, ht, List.foldl_append, List.foldl_cons,
      List.foldl_nil]
    rfl
  · simp only [reduceEff_items, Coll.items, foldEff]
    constructor
    · intro e
      apply reduceStep_log_full
      rw [e, foldEff_log_length]
    · intro h
      exact reduceStep_fold_of_defined _ _ _ h
  · intro g h
    simp only [reduce_items, Coll.items] at h ⊢
    exact reduce_fold_of_defined g A v h

/-- C16 at `A = [5, 6]` and `n = 3`: `n >= length(A)` holds and `last(A, 3)` is all of
`A`. -/
theorem last_returns_last_elements_witness :
    [Val.num 5, Val.num 6].length ≤ 3
      ∧ last [.num 5, .num 6] (.num (3 : Nat)) = .arr [.num 5, .num 6] :=
  ⟨by decide, (last_returns_last_elements [.num 5, .num 6] 3).2.2.2.1 (by decide)⟩

/-- C18 at `A = [1, 2, 3]`, the iterator `+` and the start `0`: no accumulator before an
element is `undefined`, and `reduce` is the left fold. -/
theorem reduce_tests_undefined_before_every_element_witness :
    (∀ i, i < [Val.num 1, Val.num 2, Val.num 3].length →
        strictEq (reduce (.arr ([Val.num 1, Val.num 2, Val.num 3].take i)) jsAdd (.num 0))
          .undefined = false)
      ∧ reduce (.arr [.num 1, .num 2, .num 3]) jsAdd (.num 0)
          = [Val.num 1, Val.num 2, Val.num 3].foldl jsAdd (.num 0) :=
  ⟨by decide,
    (@reduce_tests_undefined_before_every_element Unit [.num 1, .num 2, .num 3]
      (fun _ _ w => (.undefined, w)) (.num 0) ()).2.2 jsAdd (by decide)⟩

/-- C19 at `A = [1, 2]` and the test `function (x) { return x === 1; }`, which returns
only booleans: `reject` is `filter` of the negated test and the lengths add up to `2`. -/
theorem filter_reject_lengths_witness :
    (∀ x, (fun v => Val.bool (strictEq v (.num 1))) x = Val.bool true
        ∨ (fun v => Val.bool (strictEq v (.num 1))) x = Val.bool false)
      ∧ reject (.arr [.num 1, .num 2]) (fun v => .bool (strictEq v (.num 1)))
          = filter (.arr [.num 1, .num 2]) (fun x => jsNot (.bool (strictEq x (.num 1))))
      ∧ (filter (.arr [.num 1, .num 2]) (fun v => .bool (strictEq v (.num 1)))).length
          + (reject (.arr [.num 1, .num 2]) (fun v => .bool (strictEq v (.num 1)))).length
          = [Val.num 1, Val.num 2].length :=
  have hb : ∀ x, (fun v => Val.bool (strictEq v (.num 1))) x = Val.bool true
      ∨ (fun v => Val.bool (strictEq v (.num 1))) x = Val.bool false := by
    intro x
    cases h : strictEq x (.num 1) <;> simp [h]
  ⟨hb, (filter_reject_lengths [.num 1, .num 2] (fun v => .bool (strictEq v (.num 1)))).2.2.2.2 hb⟩

end Underbar
